import Mathlib

/-!
Verification of the core pipeline of `lambda-hooks` (sweeetland/lambda-hooks).

Shallow embedding of the library's core: the invocation state
(`UseHooksState`, src/src/types/hooks.ts lines 27-33), the hook-set merger
(`combineHooks`, src/src/types/hooks.ts lines 75-87 with its `defaultHook`
initial value), and the two pipeline executors found in src/src/index.ts:
the legacy `useHooks` (lines 26-60, whose catch block iterates `hooks.after`)
and the current `withHooks` (lines 98-127, whose catch block iterates
`hooks.onError`).

Modelling conventions:
* A `Promise` that resolves with `a` or rejects with `e` is `Except Err a`
  (`Except.ok` = resolved, `Except.error` = rejected).  Every step of the
  pipeline is `await`ed, so the sequential `Except` semantics loses nothing.
* The optional fields `response?` and `error?` are `Option`.
* `E`, `C`, `R`, `Err` stand for the `any`-typed event, context, response
  and error payloads.
* Besides the result, each executor returns a trace with one event per hook
  invocation or handler call, recording the state the hook was invoked with.
  The trace is pure instrumentation; the result component is the literal
  translation of the source control flow.
-/

namespace LambdaHooks

variable {E C R Err Cfg : Type} {σ α : Type}

/-- `UseHooksState` (src/src/types/hooks.ts lines 27-33): the per-invocation
state threaded through all hooks.  `response?` and `error?` are optional. -/
structure UseHooksState (E C R Err : Type) where
  event : E
  context : C
  exit : Bool
  response : Option R := none
  error : Option Err := none
deriving DecidableEq

/-- `HookHandler` (src/src/types/hooks.ts line 44):
`(state: UseHooksState) => Promise<UseHooksState>`. -/
abbrev HookHandler (E C R Err : Type) : Type :=
  UseHooksState E C R Err → Except Err (UseHooksState E C R Err)

/-- `HooksObject` (src/src/types/hooks.ts lines 10-14): the normalized hook
set with all three lists present. -/
structure HooksObject (E C R Err : Type) where
  before : List (HookHandler E C R Err)
  after : List (HookHandler E C R Err)
  onError : List (HookHandler E C R Err)

/-- `PartialHooksObject = Partial<HooksObject>` (src/src/types/hooks.ts
line 16): each of the three lists may be missing. -/
structure PartialHooksObject (E C R Err : Type) where
  before : Option (List (HookHandler E C R Err)) := none
  after : Option (List (HookHandler E C R Err)) := none
  onError : Option (List (HookHandler E C R Err)) := none

/-- Modelled from the spec: `defaultHook` (src/src/utils/defaultHook.ts) is
imported by `combineHooks` and by `useHooks`, but its defining file is not
under src/.  The spec fixes its value: the merge "starts from an empty hook
set `{before: [], after: [], onError: []}`". -/
def defaultHook : HooksObject E C R Err := ⟨[], [], []⟩

/-- The callback of the `reduce` inside `combineHooks`
(src/src/types/hooks.ts lines 76-85).  `{...defaultHook, ...hook}` keeps each
field of the partial that is present and fills a missing field with
`defaultHook`'s empty list; the returned object is freshly built, its fields
concatenated with array spreads. -/
def combineHooksStep (result : HooksObject E C R Err)
    (hook : PartialHooksObject E C R Err) : HooksObject E C R Err :=
  let newHook : HooksObject E C R Err :=
    ⟨hook.before.getD defaultHook.before, hook.after.getD defaultHook.after,
      hook.onError.getD defaultHook.onError⟩
  ⟨result.before ++ newHook.before, result.after ++ newHook.after,
    result.onError ++ newHook.onError⟩

/-- `combineHooks` (src/src/types/hooks.ts lines 75-87):
`hooks.reduce(combineHooksStep, defaultHook)`; `reduce` is a left fold. -/
def combineHooks (hooks : List (PartialHooksObject E C R Err)) :
    HooksObject E C R Err :=
  hooks.foldl combineHooksStep defaultHook

/-- Caller-visible effect of one call `combineHooks(hooks)`: the pair of the
return value and the argument list as the caller sees it after the call.  The
body of `combineHooks` only reads the partials — object spread and array
spread copy into fresh objects, and no statement of the body assigns to a
pre-existing object — so the post-call view of the arguments is the
arguments themselves. -/
def combineHooksCall (hooks : List (PartialHooksObject E C R Err)) :
    HooksObject E C R Err × List (PartialHooksObject E C R Err) :=
  (combineHooks hooks, hooks)

/-- The input normalization of the legacy `useHooks` (src/src/index.ts lines
27-29): `if (!hooks.before) hooks.before = []`, and likewise for `after` and
`onError`.  These statements assign through the caller's reference, so the
value of this function is the caller's `hooks` object as it stands after the
call (a JavaScript array is always truthy, hence only a missing field is
replaced). -/
def useHooksAssignDefaults (hooks : PartialHooksObject E C R Err) :
    PartialHooksObject E C R Err :=
  { before := some (hooks.before.getD []),
    after := some (hooks.after.getD []),
    onError := some (hooks.onError.getD []) }

/-- One event of an invocation trace over states of type `σ`: each hook
invocation records the state the hook was invoked with, tagged by the list
the hook was taken from, and the handler call records its two arguments. -/
inductive TraceEv (E C σ : Type) where
  | beforeHook (s : σ)
  | handlerCall (event : E) (context : C)
  | afterHook (s : σ)
  | errorHook (s : σ)
deriving DecidableEq

/-- Result of one hook for-loop: `exited s` — a hook returned `s` with the
exit flag set, so the enclosing function returns `s.response`; `completed s`
— the list was exhausted, the state variable holding `s`; `threw s e` — a
hook rejected with `e` while the state variable still held `s` (the
assignment `state = await hook(state)` did not happen).  `tr` records, in
order, the state each invoked hook received. -/
inductive HookLoopResult (σ Err : Type) where
  | exited (s : σ) (tr : List σ)
  | completed (s : σ) (tr : List σ)
  | threw (s : σ) (e : Err) (tr : List σ)
deriving DecidableEq

/-- Prepend earlier trace entries to a loop result. -/
def HookLoopResult.addTrace (tr : List σ) :
    HookLoopResult σ Err → HookLoopResult σ Err
  | .exited s tr2 => .exited s (tr ++ tr2)
  | .completed s tr2 => .completed s (tr ++ tr2)
  | .threw s e tr2 => .threw s e (tr ++ tr2)

/-- The hook for-loop shared by every phase of both executors
(src/src/index.ts lines 35-39, 44-48, 52-56, 102-106, 111-115 and 119-123):
`state = await hook(state); if (state.exit) return state.response`.
Generic in the state type; `exitOf` reads the exit flag. -/
def runHookList (exitOf : σ → Bool) :
    List (σ → Except Err σ) → σ → HookLoopResult σ Err
  | [], s => .completed s []
  | h :: rest, s =>
    match h s with
    | .error e => .threw s e [s]
    | .ok s' =>
      if exitOf s' then .exited s' [s]
      else (runHookList exitOf rest s').addTrace [s]

/-- `let state: UseHooksState = { event, context, exit: false }`
(src/src/index.ts lines 32 and 99). -/
def initState (event : E) (context : C) : UseHooksState E C R Err :=
  { event := event, context := context, exit := false }

/-- The catch block of the current `withHooks` (src/src/index.ts lines
116-124) together with the final `return state.response` (line 126):
`state.error = error`, then the for-loop over `hooks.onError`.  The loop is
not itself protected by a try, so a hook that rejects here rejects the whole
invocation. -/
def errorPhase (hooks : HooksObject E C R Err) (s : UseHooksState E C R Err)
    (e : Err) :
    Except Err (Option R) × List (TraceEv E C (UseHooksState E C R Err)) :=
  match runHookList (fun st => st.exit) hooks.onError { s with error := some e } with
  | .exited s2 tr => (.ok s2.response, tr.map TraceEv.errorHook)
  | .completed s2 tr => (.ok s2.response, tr.map TraceEv.errorHook)
  | .threw _ e2 tr => (.error e2, tr.map TraceEv.errorHook)

/-- One invocation of a handler decorated by the current executor `withHooks`
(src/src/index.ts lines 98-127): before-loop, `state.response = await
lambda(state.event, state.context)`, the `hooks.after.length === 0` early
return (line 109), after-loop, with every raise during those steps diverted
to `errorPhase`, and the final `return state.response`. -/
def withHooksRun (hooks : HooksObject E C R Err)
    (lambda : E → C → Except Err R) (event : E) (context : C) :
    Except Err (Option R) × List (TraceEv E C (UseHooksState E C R Err)) :=
  match runHookList (fun st => st.exit) hooks.before (initState event context) with
  | .exited s tr => (.ok s.response, tr.map TraceEv.beforeHook)
  | .threw s e tr =>
    let r := errorPhase hooks s e
    (r.1, tr.map TraceEv.beforeHook ++ r.2)
  | .completed s tr =>
    match lambda s.event s.context with
    | .error e =>
      let r := errorPhase hooks s e
      (r.1, tr.map TraceEv.beforeHook ++ [TraceEv.handlerCall s.event s.context] ++ r.2)
    | .ok resp =>
      let s1 : UseHooksState E C R Err := { s with response := some resp }
      if hooks.after.length = 0 then
        (.ok s1.response,
          tr.map TraceEv.beforeHook ++ [TraceEv.handlerCall s.event s.context])
      else
        match runHookList (fun st => st.exit) hooks.after s1 with
        | .exited s2 tr2 =>
          (.ok s2.response,
            tr.map TraceEv.beforeHook ++ [TraceEv.handlerCall s.event s.context]
              ++ tr2.map TraceEv.afterHook)
        | .completed s2 tr2 =>
          (.ok s2.response,
            tr.map TraceEv.beforeHook ++ [TraceEv.handlerCall s.event s.context]
              ++ tr2.map TraceEv.afterHook)
        | .threw s2 e tr2 =>
          let r := errorPhase hooks s2 e
          (r.1,
            tr.map TraceEv.beforeHook ++ [TraceEv.handlerCall s.event s.context]
              ++ tr2.map TraceEv.afterHook ++ r.2)

/-- The catch block of the legacy `useHooks` (src/src/index.ts lines 49-57)
together with the final `return state.response` (line 59):
`state.error = error`, then a for-loop over `hooks.after` — the source
iterates the after list here, not `hooks.onError`, which this executor never
reads.  The invoked hooks are recorded as `afterHook` events, being hooks of
the after list. -/
def useHooksCatch (hooks : HooksObject E C R Err) (s : UseHooksState E C R Err)
    (e : Err) :
    Except Err (Option R) × List (TraceEv E C (UseHooksState E C R Err)) :=
  match runHookList (fun st => st.exit) hooks.after { s with error := some e } with
  | .exited s2 tr => (.ok s2.response, tr.map TraceEv.afterHook)
  | .completed s2 tr => (.ok s2.response, tr.map TraceEv.afterHook)
  | .threw _ e2 tr => (.error e2, tr.map TraceEv.afterHook)

/-- One invocation of a handler decorated by the legacy `useHooks`
(src/src/index.ts lines 31-60).  The try block (lines 34-48) is identical to
the one of `withHooks`; the catch block is `useHooksCatch`. -/
def useHooksRun (hooks : HooksObject E C R Err)
    (lambda : E → C → Except Err R) (event : E) (context : C) :
    Except Err (Option R) × List (TraceEv E C (UseHooksState E C R Err)) :=
  match runHookList (fun st => st.exit) hooks.before (initState event context) with
  | .exited s tr => (.ok s.response, tr.map TraceEv.beforeHook)
  | .threw s e tr =>
    let r := useHooksCatch hooks s e
    (r.1, tr.map TraceEv.beforeHook ++ r.2)
  | .completed s tr =>
    match lambda s.event s.context with
    | .error e =>
      let r := useHooksCatch hooks s e
      (r.1, tr.map TraceEv.beforeHook ++ [TraceEv.handlerCall s.event s.context] ++ r.2)
    | .ok resp =>
      let s1 : UseHooksState E C R Err := { s with response := some resp }
      if hooks.after.length = 0 then
        (.ok s1.response,
          tr.map TraceEv.beforeHook ++ [TraceEv.handlerCall s.event s.context])
      else
        match runHookList (fun st => st.exit) hooks.after s1 with
        | .exited s2 tr2 =>
          (.ok s2.response,
            tr.map TraceEv.beforeHook ++ [TraceEv.handlerCall s.event s.context]
              ++ tr2.map TraceEv.afterHook)
        | .completed s2 tr2 =>
          (.ok s2.response,
            tr.map TraceEv.beforeHook ++ [TraceEv.handlerCall s.event s.context]
              ++ tr2.map TraceEv.afterHook)
        | .threw s2 e tr2 =>
          let r := useHooksCatch hooks s2 e
          (r.1,
            tr.map TraceEv.beforeHook ++ [TraceEv.handlerCall s.event s.context]
              ++ tr2.map TraceEv.afterHook ++ r.2)

/-- Modelled from the spec: the invocation state extended with the
decoration-time `config`.  The decorator variant that attaches `config` to
the state is not under src/ — only a consumer of it appears there (the
`logEvent` variant reading `state.config.logger`).  The spec fixes the
field: "`config`: optional caller-supplied auxiliary data, constant for the
lifetime of one decorated handler (shared read-only context injected at
setup time, not per invocation)", and step 1 of the executor builds
`{event, context, exit: false}` "(plus `config` if supplied at decoration
time)". -/
structure ConfigState (E C R Err Cfg : Type) where
  event : E
  context : C
  exit : Bool
  response : Option R := none
  error : Option Err := none
  config : Cfg
deriving DecidableEq

/-- A hook over the config-extended state. -/
abbrev ConfigHookHandler (E C R Err Cfg : Type) : Type :=
  ConfigState E C R Err Cfg → Except Err (ConfigState E C R Err Cfg)

/-- The normalized hook set over the config-extended state. -/
structure ConfigHooksObject (E C R Err Cfg : Type) where
  before : List (ConfigHookHandler E C R Err Cfg)
  after : List (ConfigHookHandler E C R Err Cfg)
  onError : List (ConfigHookHandler E C R Err Cfg)

/-- Modelled from the spec: the initial state of one invocation of the
config-carrying decorator variant, `{event, context, exit: false, config}`. -/
def initConfigState (config : Cfg) (event : E) (context : C) :
    ConfigState E C R Err Cfg :=
  { event := event, context := context, exit := false, config := config }

/-- Modelled from the spec: the error phase of the config-carrying decorator
variant, identical to `errorPhase` but over the config-extended state. -/
def errorPhaseWithConfig (hooks : ConfigHooksObject E C R Err Cfg)
    (s : ConfigState E C R Err Cfg) (e : Err) :
    Except Err (Option R) × List (TraceEv E C (ConfigState E C R Err Cfg)) :=
  match runHookList (fun st => st.exit) hooks.onError { s with error := some e } with
  | .exited s2 tr => (.ok s2.response, tr.map TraceEv.errorHook)
  | .completed s2 tr => (.ok s2.response, tr.map TraceEv.errorHook)
  | .threw _ e2 tr => (.error e2, tr.map TraceEv.errorHook)

/-- Modelled from the spec: one invocation of the config-carrying decorator
variant.  The control flow is that of `withHooks` (src/src/index.ts lines
98-127); the only difference is the `config` field placed on the initial
state at decoration time. -/
def withHooksConfigRun (hooks : ConfigHooksObject E C R Err Cfg) (config : Cfg)
    (lambda : E → C → Except Err R) (event : E) (context : C) :
    Except Err (Option R) × List (TraceEv E C (ConfigState E C R Err Cfg)) :=
  match runHookList (fun st => st.exit) hooks.before (initConfigState config event context) with
  | .exited s tr => (.ok s.response, tr.map TraceEv.beforeHook)
  | .threw s e tr =>
    let r := errorPhaseWithConfig hooks s e
    (r.1, tr.map TraceEv.beforeHook ++ r.2)
  | .completed s tr =>
    match lambda s.event s.context with
    | .error e =>
      let r := errorPhaseWithConfig hooks s e
      (r.1, tr.map TraceEv.beforeHook ++ [TraceEv.handlerCall s.event s.context] ++ r.2)
    | .ok resp =>
      let s1 : ConfigState E C R Err Cfg := { s with response := some resp }
      if hooks.after.length = 0 then
        (.ok s1.response,
          tr.map TraceEv.beforeHook ++ [TraceEv.handlerCall s.event s.context])
      else
        match runHookList (fun st => st.exit) hooks.after s1 with
        | .exited s2 tr2 =>
          (.ok s2.response,
            tr.map TraceEv.beforeHook ++ [TraceEv.handlerCall s.event s.context]
              ++ tr2.map TraceEv.afterHook)
        | .completed s2 tr2 =>
          (.ok s2.response,
            tr.map TraceEv.beforeHook ++ [TraceEv.handlerCall s.event s.context]
              ++ tr2.map TraceEv.afterHook)
        | .threw s2 e tr2 =>
          let r := errorPhaseWithConfig hooks s2 e
          (r.1,
            tr.map TraceEv.beforeHook ++ [TraceEv.handlerCall s.event s.context]
              ++ tr2.map TraceEv.afterHook ++ r.2)

/-- The exit flag of the state a trace event carries (`false` for the
handler call, which receives no state). -/
def TraceEv.stateExit : TraceEv E C (UseHooksState E C R Err) → Bool
  | .beforeHook s => s.exit
  | .handlerCall _ _ => false
  | .afterHook s => s.exit
  | .errorHook s => s.exit

/-- Whether a trace event is an invocation of an onError-list hook. -/
def TraceEv.isErrHook : TraceEv E C σ → Bool
  | .errorHook _ => true
  | _ => false

/-- Whether a trace event is an invocation of an after-list hook. -/
def TraceEv.isAftHook : TraceEv E C σ → Bool
  | .afterHook _ => true
  | _ => false

/-- The state a config-extended trace event carries shows `config = cfg`
(vacuous for the handler call, which receives no state). -/
def TraceEv.configIs (cfg : Cfg) : TraceEv E C (ConfigState E C R Err Cfg) → Prop
  | .beforeHook s => s.config = cfg
  | .handlerCall _ _ => True
  | .afterHook s => s.config = cfg
  | .errorHook s => s.config = cfg

/-- Whether the promise resolved (`Except.ok`) rather than rejected. -/
def isResolved : Except Err α → Bool
  | .ok _ => true
  | .error _ => false

/-- Spec-side definition, for the merge claim: the concatenation of one field
across a sequence of partials in input order, a missing field contributing
the empty sequence. -/
def fieldConcat (f : PartialHooksObject E C R Err → Option (List (HookHandler E C R Err))) :
    List (PartialHooksObject E C R Err) → List (HookHandler E C R Err)
  | [] => []
  | p :: ps => (f p).getD [] ++ fieldConcat f ps

/-- Concrete hook: sets the exit flag and the response `7`. -/
def exitHook7 : HookHandler ℕ ℕ ℕ ℕ :=
  fun s => .ok { s with exit := true, response := some 7 }

/-- Concrete hook: sets the exit flag and the response `500` (the shape of
`handleUnexpectedError`). -/
def exitHook500 : HookHandler ℕ ℕ ℕ ℕ :=
  fun s => .ok { s with exit := true, response := some 500 }

/-- Concrete hook: sets the exit flag without supplying a response. -/
def exitNoRespHook : HookHandler ℕ ℕ ℕ ℕ :=
  fun s => .ok { s with exit := true }

/-- Concrete hook: sets the response `999` and returns normally. -/
def respHook999 : HookHandler ℕ ℕ ℕ ℕ :=
  fun s => .ok { s with response := some 999 }

/-- Concrete hook: always rejects with `99`. -/
def rejectHook99 : HookHandler ℕ ℕ ℕ ℕ := fun _ => .error 99

/-- Concrete hook: always rejects with `55`. -/
def rejectHook55 : HookHandler ℕ ℕ ℕ ℕ := fun _ => .error 55

/-- Concrete handler: rejects with `7`. -/
def rejectLambda7 : ℕ → ℕ → Except ℕ ℕ := fun _ _ => .error 7

/-- Concrete handler: resolves with the sum of event and context. -/
def addLambda : ℕ → ℕ → Except ℕ ℕ := fun a b => .ok (a + b)

/-- The fully empty hook set over `ℕ` payloads. -/
def emptyHooks : HooksObject ℕ ℕ ℕ ℕ := ⟨[], [], []⟩

/-- Concrete hook set exercising the legacy catch block: one after-hook, one
onError-hook. -/
def legacyBugHooks : HooksObject ℕ ℕ ℕ ℕ := ⟨[], [respHook999], [exitHook500]⟩

/-- Concrete hook set: an exiting before-hook followed by a rejecting one,
with rejecting after- and onError-hooks that must never run. -/
def hooksBeforeExit : HooksObject ℕ ℕ ℕ ℕ :=
  ⟨[exitHook7, rejectHook99], [rejectHook99], [rejectHook99]⟩

/-- Concrete hook set: a single onError hook that itself rejects. -/
def hooksRejectingOnError : HooksObject ℕ ℕ ℕ ℕ := ⟨[], [], [rejectHook55]⟩

/-- Concrete hook set: a before-hook that exits without a response. -/
def hooksExitNoResp : HooksObject ℕ ℕ ℕ ℕ := ⟨[exitNoRespHook], [], []⟩

/-- The partial hook set with all three fields missing. -/
def noneHooks : PartialHooksObject ℕ ℕ ℕ ℕ := ⟨none, none, none⟩

/-- Concrete config-extended hook: bumps the event, leaves `config` alone. -/
def bumpEventHookC : ConfigHookHandler ℕ ℕ ℕ ℕ ℕ :=
  fun s => .ok { s with event := s.event + 1 }

/-- Concrete config-extended hook set with a single before-hook. -/
def cfgHooks : ConfigHooksObject ℕ ℕ ℕ ℕ ℕ := ⟨[bumpEventHookC], [], []⟩

/-- Concrete config-extended handler: resolves with the event. -/
def eventLambda : ℕ → ℕ → Except ℕ ℕ := fun a _ => .ok a

theorem addTrace_nil (r : HookLoopResult σ Err) : r.addTrace [] = r := by
  cases r <;> simp [HookLoopResult.addTrace]

theorem addTrace_addTrace (t1 t2 : List σ) (r : HookLoopResult σ Err) :
    (r.addTrace t2).addTrace t1 = r.addTrace (t1 ++ t2) := by
  cases r <;> simp [HookLoopResult.addTrace]

theorem runHookList_append_completed {exitOf : σ → Bool}
    {l1 : List (σ → Except Err σ)} {s s1 : σ} {tr1 : List σ}
    (l2 : List (σ → Except Err σ))
    (h1 : runHookList exitOf l1 s = .completed s1 tr1) :
    runHookList exitOf (l1 ++ l2) s = (runHookList exitOf l2 s1).addTrace tr1 := by
  induction l1 generalizing s tr1 with
  | nil =>
    simp only [runHookList, HookLoopResult.completed.injEq] at h1
    obtain ⟨rfl, rfl⟩ := h1
    simp [addTrace_nil]
  | cons h t ih =>
    simp only [runHookList] at h1
    cases hh : h s with
    | error e => rw [hh] at h1; simp at h1
    | ok s' =>
      rw [hh] at h1
      by_cases hx : exitOf s' = true
      · simp [hx] at h1
      · simp only [hx, if_false, Bool.false_eq_true, if_neg] at h1
        cases hr : runHookList exitOf t s' with
        | exited s2 tr2 => rw [hr] at h1; simp [HookLoopResult.addTrace] at h1
        | threw s2 e2 tr2 => rw [hr] at h1; simp [HookLoopResult.addTrace] at h1
        | completed s2 tr2 =>
          rw [hr] at h1
          simp only [HookLoopResult.addTrace, HookLoopResult.completed.injEq] at h1
          obtain ⟨rfl, rfl⟩ := h1
          simp only [List.cons_append, runHookList, hh, hx, if_false, Bool.false_eq_true,
            if_neg, List.append_eq]
          rw [ih hr, addTrace_addTrace]
          simp

theorem runHookList_append_exited {exitOf : σ → Bool}
    {l1 : List (σ → Except Err σ)} {s s1 : σ} {tr1 : List σ}
    (l2 : List (σ → Except Err σ))
    (h1 : runHookList exitOf l1 s = .exited s1 tr1) :
    runHookList exitOf (l1 ++ l2) s = .exited s1 tr1 := by
  induction l1 generalizing s tr1 with
  | nil => simp [runHookList] at h1
  | cons h t ih =>
    simp only [runHookList] at h1
    cases hh : h s with
    | error e => rw [hh] at h1; simp at h1
    | ok s' =>
      rw [hh] at h1
      by_cases hx : exitOf s' = true
      · simp only [hx, if_true, HookLoopResult.exited.injEq, if_pos] at h1
        obtain ⟨rfl, rfl⟩ := h1
        simp [List.cons_append, runHookList, hh, hx]
      · simp only [hx, if_false, Bool.false_eq_true, if_neg] at h1
        cases hr : runHookList exitOf t s' with
        | completed s2 tr2 => rw [hr] at h1; simp [HookLoopResult.addTrace] at h1
        | threw s2 e2 tr2 => rw [hr] at h1; simp [HookLoopResult.addTrace] at h1
        | exited s2 tr2 =>
          rw [hr] at h1
          simp only [HookLoopResult.addTrace, HookLoopResult.exited.injEq] at h1
          obtain ⟨rfl, rfl⟩ := h1
          simp only [List.cons_append, runHookList, hh, hx, if_false, Bool.false_eq_true,
            if_neg, List.append_eq]
          rw [ih hr]
          simp [HookLoopResult.addTrace]

theorem runHookList_append_threw {exitOf : σ → Bool}
    {l1 : List (σ → Except Err σ)} {s s1 : σ} {e : Err} {tr1 : List σ}
    (l2 : List (σ → Except Err σ))
    (h1 : runHookList exitOf l1 s = .threw s1 e tr1) :
    runHookList exitOf (l1 ++ l2) s = .threw s1 e tr1 := by
  induction l1 generalizing s tr1 with
  | nil => simp [runHookList] at h1
  | cons h t ih =>
    simp only [runHookList] at h1
    cases hh : h s with
    | error e2 =>
      rw [hh] at h1
      simp only [HookLoopResult.threw.injEq] at h1
      obtain ⟨rfl, rfl, rfl⟩ := h1
      simp [List.cons_append, runHookList, hh]
    | ok s' =>
      rw [hh] at h1
      by_cases hx : exitOf s' = true
      · simp [hx] at h1
      · simp only [hx, if_false, Bool.false_eq_true, if_neg] at h1
        cases hr : runHookList exitOf t s' with
        | completed s2 tr2 => rw [hr] at h1; simp [HookLoopResult.addTrace] at h1
        | exited s2 tr2 => rw [hr] at h1; simp [HookLoopResult.addTrace] at h1
        | threw s2 e2 tr2 =>
          rw [hr] at h1
          simp only [HookLoopResult.addTrace, HookLoopResult.threw.injEq] at h1
          obtain ⟨rfl, rfl, rfl⟩ := h1
          simp only [List.cons_append, runHookList, hh, hx, if_false, Bool.false_eq_true,
            if_neg, List.append_eq]
          rw [ih hr]
          simp [HookLoopResult.addTrace]

theorem runHookList_completed_length {exitOf : σ → Bool}
    {hs : List (σ → Except Err σ)} {s s1 : σ} {tr : List σ}
    (h1 : runHookList exitOf hs s = .completed s1 tr) :
    tr.length = hs.length := by
  induction hs generalizing s tr with
  | nil =>
    simp only [runHookList, HookLoopResult.completed.injEq] at h1
    obtain ⟨rfl, rfl⟩ := h1
    rfl
  | cons h t ih =>
    simp only [runHookList] at h1
    cases hh : h s with
    | error e => rw [hh] at h1; simp at h1
    | ok s' =>
      rw [hh] at h1
      by_cases hx : exitOf s' = true
      · simp [hx] at h1
      · simp only [hx, if_false, Bool.false_eq_true, if_neg] at h1
        cases hr : runHookList exitOf t s' with
        | exited s2 tr2 => rw [hr] at h1; simp [HookLoopResult.addTrace] at h1
        | threw s2 e2 tr2 => rw [hr] at h1; simp [HookLoopResult.addTrace] at h1
        | completed s2 tr2 =>
          rw [hr] at h1
          simp only [HookLoopResult.addTrace, HookLoopResult.completed.injEq] at h1
          obtain ⟨rfl, rfl⟩ := h1
          simp [ih hr]

theorem runHookList_exited_inv {exitOf : σ → Bool}
    {hs : List (σ → Except Err σ)} {s s1 : σ} {tr : List σ}
    (h0 : exitOf s = false)
    (h1 : runHookList exitOf hs s = .exited s1 tr) :
    (∀ x ∈ tr, exitOf x = false) ∧ exitOf s1 = true := by
  induction hs generalizing s tr with
  | nil => simp [runHookList] at h1
  | cons h t ih =>
    simp only [runHookList] at h1
    cases hh : h s with
    | error e => rw [hh] at h1; simp at h1
    | ok s' =>
      rw [hh] at h1
      by_cases hx : exitOf s' = true
      · simp only [hx, if_true, HookLoopResult.exited.injEq, if_pos] at h1
        obtain ⟨rfl, rfl⟩ := h1
        exact ⟨by simpa using h0, hx⟩
      · simp only [hx, if_false, Bool.false_eq_true, if_neg] at h1
        cases hr : runHookList exitOf t s' with
        | completed s2 tr2 => rw [hr] at h1; simp [HookLoopResult.addTrace] at h1
        | threw s2 e2 tr2 => rw [hr] at h1; simp [HookLoopResult.addTrace] at h1
        | exited s2 tr2 =>
          rw [hr] at h1
          simp only [HookLoopResult.addTrace, HookLoopResult.exited.injEq] at h1
          obtain ⟨rfl, rfl⟩ := h1
          have hx' : exitOf s' = false := by simpa using hx
          obtain ⟨ha, hb⟩ := ih hx' hr
          refine ⟨?_, hb⟩
          intro x hmem
          rcases List.mem_cons.mp (by simpa using hmem) with hc | hc
          · exact hc ▸ h0
          · exact ha x hc

theorem runHookList_completed_inv {exitOf : σ → Bool}
    {hs : List (σ → Except Err σ)} {s s1 : σ} {tr : List σ}
    (h0 : exitOf s = false)
    (h1 : runHookList exitOf hs s = .completed s1 tr) :
    (∀ x ∈ tr, exitOf x = false) ∧ exitOf s1 = false := by
  induction hs generalizing s tr with
  | nil =>
    simp only [runHookList, HookLoopResult.completed.injEq] at h1
    obtain ⟨rfl, rfl⟩ := h1
    exact ⟨by simp, h0⟩
  | cons h t ih =>
    simp only [runHookList] at h1
    cases hh : h s with
    | error e => rw [hh] at h1; simp at h1
    | ok s' =>
      rw [hh] at h1
      by_cases hx : exitOf s' = true
      · simp [hx] at h1
      · simp only [hx, if_false, Bool.false_eq_true, if_neg] at h1
        cases hr : runHookList exitOf t s' with
        | exited s2 tr2 => rw [hr] at h1; simp [HookLoopResult.addTrace] at h1
        | threw s2 e2 tr2 => rw [hr] at h1; simp [HookLoopResult.addTrace] at h1
        | completed s2 tr2 =>
          rw [hr] at h1
          simp only [HookLoopResult.addTrace, HookLoopResult.completed.injEq] at h1
          obtain ⟨rfl, rfl⟩ := h1
          have hx' : exitOf s' = false := by simpa using hx
          obtain ⟨ha, hb⟩ := ih hx' hr
          refine ⟨?_, hb⟩
          intro x hmem
          rcases List.mem_cons.mp (by simpa using hmem) with hc | hc
          · exact hc ▸ h0
          · exact ha x hc

theorem runHookList_threw_inv {exitOf : σ → Bool}
    {hs : List (σ → Except Err σ)} {s s1 : σ} {e : Err} {tr : List σ}
    (h0 : exitOf s = false)
    (h1 : runHookList exitOf hs s = .threw s1 e tr) :
    (∀ x ∈ tr, exitOf x = false) ∧ exitOf s1 = false := by
  induction hs generalizing s tr with
  | nil => simp [runHookList] at h1
  | cons h t ih =>
    simp only [runHookList] at h1
    cases hh : h s with
    | error e2 =>
      rw [hh] at h1
      simp only [HookLoopResult.threw.injEq] at h1
      obtain ⟨rfl, rfl, rfl⟩ := h1
      exact ⟨by simpa using h0, h0⟩
    | ok s' =>
      rw [hh] at h1
      by_cases hx : exitOf s' = true
      · simp [hx] at h1
      · simp only [hx, if_false, Bool.false_eq_true, if_neg] at h1
        cases hr : runHookList exitOf t s' with
        | exited s2 tr2 => rw [hr] at h1; simp [HookLoopResult.addTrace] at h1
        | completed s2 tr2 => rw [hr] at h1; simp [HookLoopResult.addTrace] at h1
        | threw s2 e2 tr2 =>
          rw [hr] at h1
          simp only [HookLoopResult.addTrace, HookLoopResult.threw.injEq] at h1
          obtain ⟨rfl, rfl, rfl⟩ := h1
          have hx' : exitOf s' = false := by simpa using hx
          obtain ⟨ha, hb⟩ := ih hx' hr
          refine ⟨?_, hb⟩
          intro x hmem
          rcases List.mem_cons.mp (by simpa using hmem) with hc | hc
          · exact hc ▸ h0
          · exact ha x hc

theorem runHookList_config_exited {hs : List (ConfigHookHandler E C R Err Cfg)}
    {s s1 : ConfigState E C R Err Cfg} {tr : List (ConfigState E C R Err Cfg)} {cfg : Cfg}
    (hpres : ∀ h ∈ hs, ∀ t t', h t = Except.ok t' → t'.config = t.config)
    (h0 : s.config = cfg)
    (h1 : runHookList (fun st => st.exit) hs s = .exited s1 tr) :
    (∀ x ∈ tr, x.config = cfg) ∧ s1.config = cfg := by
  induction hs generalizing s tr with
  | nil => simp [runHookList] at h1
  | cons h t ih =>
    have hph := hpres h (List.mem_cons_self h t)
    have hpt : ∀ g ∈ t, ∀ u u', g u = Except.ok u' → u'.config = u.config :=
      fun g hg => hpres g (List.mem_cons_of_mem h hg)
    simp only [runHookList] at h1
    cases hh : h s with
    | error e => rw [hh] at h1; simp at h1
    | ok s' =>
      have hs' : s'.config = cfg := (hph s s' hh).trans h0
      rw [hh] at h1
      by_cases hx : s'.exit = true
      · simp only [hx, if_true, HookLoopResult.exited.injEq, if_pos] at h1
        obtain ⟨rfl, rfl⟩ := h1
        exact ⟨by simpa using h0, hs'⟩
      · simp only [hx, if_false, Bool.false_eq_true, if_neg] at h1
        cases hr : runHookList (fun st => st.exit) t s' with
        | completed s2 tr2 => rw [hr] at h1; simp [HookLoopResult.addTrace] at h1
        | threw s2 e2 tr2 => rw [hr] at h1; simp [HookLoopResult.addTrace] at h1
        | exited s2 tr2 =>
          rw [hr] at h1
          simp only [HookLoopResult.addTrace, HookLoopResult.exited.injEq] at h1
          obtain ⟨rfl, rfl⟩ := h1
          obtain ⟨ha, hb⟩ := ih hpt hs' hr
          refine ⟨?_, hb⟩
          intro x hmem
          rcases List.mem_cons.mp (by simpa using hmem) with hc | hc
          · exact hc ▸ h0
          · exact ha x hc

theorem runHookList_config_completed {hs : List (ConfigHookHandler E C R Err Cfg)}
    {s s1 : ConfigState E C R Err Cfg} {tr : List (ConfigState E C R Err Cfg)} {cfg : Cfg}
    (hpres : ∀ h ∈ hs, ∀ t t', h t = Except.ok t' → t'.config = t.config)
    (h0 : s.config = cfg)
    (h1 : runHookList (fun st => st.exit) hs s = .completed s1 tr) :
    (∀ x ∈ tr, x.config = cfg) ∧ s1.config = cfg := by
  induction hs generalizing s tr with
  | nil =>
    simp only [runHookList, HookLoopResult.completed.injEq] at h1
    obtain ⟨rfl, rfl⟩ := h1
    exact ⟨by simp, h0⟩
  | cons h t ih =>
    have hph := hpres h (List.mem_cons_self h t)
    have hpt : ∀ g ∈ t, ∀ u u', g u = Except.ok u' → u'.config = u.config :=
      fun g hg => hpres g (List.mem_cons_of_mem h hg)
    simp only [runHookList] at h1
    cases hh : h s with
    | error e => rw [hh] at h1; simp at h1
    | ok s' =>
      have hs' : s'.config = cfg := (hph s s' hh).trans h0
      rw [hh] at h1
      by_cases hx : s'.exit = true
      · simp [hx] at h1
      · simp only [hx, if_false, Bool.false_eq_true, if_neg] at h1
        cases hr : runHookList (fun st => st.exit) t s' with
        | exited s2 tr2 => rw [hr] at h1; simp [HookLoopResult.addTrace] at h1
        | threw s2 e2 tr2 => rw [hr] at h1; simp [HookLoopResult.addTrace] at h1
        | completed s2 tr2 =>
          rw [hr] at h1
          simp only [HookLoopResult.addTrace, HookLoopResult.completed.injEq] at h1
          obtain ⟨rfl, rfl⟩ := h1
          obtain ⟨ha, hb⟩ := ih hpt hs' hr
          refine ⟨?_, hb⟩
          intro x hmem
          rcases List.mem_cons.mp (by simpa using hmem) with hc | hc
          · exact hc ▸ h0
          · exact ha x hc

theorem runHookList_config_threw {hs : List (ConfigHookHandler E C R Err Cfg)}
    {s s1 : ConfigState E C R Err Cfg} {e : Err} {tr : List (ConfigState E C R Err Cfg)}
    {cfg : Cfg}
    (hpres : ∀ h ∈ hs, ∀ t t', h t = Except.ok t' → t'.config = t.config)
    (h0 : s.config = cfg)
    (h1 : runHookList (fun st => st.exit) hs s = .threw s1 e tr) :
    (∀ x ∈ tr, x.config = cfg) ∧ s1.config = cfg := by
  induction hs generalizing s tr with
  | nil => simp [runHookList] at h1
  | cons h t ih =>
    have hph := hpres h (List.mem_cons_self h t)
    have hpt : ∀ g ∈ t, ∀ u u', g u = Except.ok u' → u'.config = u.config :=
      fun g hg => hpres g (List.mem_cons_of_mem h hg)
    simp only [runHookList] at h1
    cases hh : h s with
    | error e2 =>
      rw [hh] at h1
      simp only [HookLoopResult.threw.injEq] at h1
      obtain ⟨rfl, rfl, rfl⟩ := h1
      exact ⟨by simpa using h0, h0⟩
    | ok s' =>
      have hs' : s'.config = cfg := (hph s s' hh).trans h0
      rw [hh] at h1
      by_cases hx : s'.exit = true
      · simp [hx] at h1
      · simp only [hx, if_false, Bool.false_eq_true, if_neg] at h1
        cases hr : runHookList (fun st => st.exit) t s' with
        | exited s2 tr2 => rw [hr] at h1; simp [HookLoopResult.addTrace] at h1
        | completed s2 tr2 => rw [hr] at h1; simp [HookLoopResult.addTrace] at h1
        | threw s2 e2 tr2 =>
          rw [hr] at h1
          simp only [HookLoopResult.addTrace, HookLoopResult.threw.injEq] at h1
          obtain ⟨rfl, rfl, rfl⟩ := h1
          obtain ⟨ha, hb⟩ := ih hpt hs' hr
          refine ⟨?_, hb⟩
          intro x hmem
          rcases List.mem_cons.mp (by simpa using hmem) with hc | hc
          · exact hc ▸ h0
          · exact ha x hc

theorem errorPhase_empty {hooks : HooksObject E C R Err}
    (honE : hooks.onError = []) (s : UseHooksState E C R Err) (e : Err) :
    errorPhase hooks s e = (Except.ok s.response, []) := by
  unfold errorPhase
  rw [honE]
  rfl

theorem errorPhase_state_exit {hooks : HooksObject E C R Err}
    {s : UseHooksState E C R Err} {e : Err} (h0 : s.exit = false) :
    ∀ tv ∈ (errorPhase hooks s e).2, tv.stateExit = false := by
  intro tv hmem
  have h0' : ({ s with error := some e } : UseHooksState E C R Err).exit = false := h0
  simp only [errorPhase] at hmem
  split at hmem
  next s2 tr hr =>
    obtain ⟨x, hx, rfl⟩ := List.mem_map.mp hmem
    simpa [TraceEv.stateExit] using (runHookList_exited_inv h0' hr).1 x hx
  next s2 tr hr =>
    obtain ⟨x, hx, rfl⟩ := List.mem_map.mp hmem
    simpa [TraceEv.stateExit] using (runHookList_completed_inv h0' hr).1 x hx
  next s2 e2 tr hr =>
    obtain ⟨x, hx, rfl⟩ := List.mem_map.mp hmem
    simpa [TraceEv.stateExit] using (runHookList_threw_inv h0' hr).1 x hx

theorem withHooksRun_trace_exit (hooks : HooksObject E C R Err)
    (lambda : E → C → Except Err R) (event : E) (context : C) :
    ∀ tv ∈ (withHooksRun hooks lambda event context).2, tv.stateExit = false := by
  have h0 : (initState event context : UseHooksState E C R Err).exit = false := rfl
  intro tv hmem
  simp only [withHooksRun] at hmem
  split at hmem
  next s tr hB =>
    obtain ⟨x, hx, rfl⟩ := List.mem_map.mp hmem
    simpa [TraceEv.stateExit] using (runHookList_exited_inv h0 hB).1 x hx
  next s e tr hB =>
    obtain ⟨ha, hsx⟩ := runHookList_threw_inv h0 hB
    rcases List.mem_append.mp hmem with hmem | hmem
    · obtain ⟨x, hx, rfl⟩ := List.mem_map.mp hmem
      simpa [TraceEv.stateExit] using ha x hx
    · exact errorPhase_state_exit hsx tv hmem
  next s tr hB =>
    obtain ⟨ha, hsx⟩ := runHookList_completed_inv h0 hB
    split at hmem
    next e hlam =>
      rcases List.mem_append.mp hmem with hmem | hmem
      · rcases List.mem_append.mp hmem with hmem | hmem
        · obtain ⟨x, hx, rfl⟩ := List.mem_map.mp hmem
          simpa [TraceEv.stateExit] using ha x hx
        · rw [List.mem_singleton.mp hmem]
          rfl
      · exact errorPhase_state_exit hsx tv hmem
    next resp hlam =>
      have hs1 : ({ s with response := some resp } : UseHooksState E C R Err).exit = false :=
        hsx
      split at hmem
      · rcases List.mem_append.mp hmem with hmem | hmem
        · obtain ⟨x, hx, rfl⟩ := List.mem_map.mp hmem
          simpa [TraceEv.stateExit] using ha x hx
        · rw [List.mem_singleton.mp hmem]
          rfl
      · split at hmem
        next s2 tr2 hA =>
          obtain ⟨ha2, _⟩ := runHookList_exited_inv hs1 hA
          rcases List.mem_append.mp hmem with hmem | hmem
          · rcases List.mem_append.mp hmem with hmem | hmem
            · obtain ⟨x, hx, rfl⟩ := List.mem_map.mp hmem
              simpa [TraceEv.stateExit] using ha x hx
            · rw [List.mem_singleton.mp hmem]
              rfl
          · obtain ⟨x, hx, rfl⟩ := List.mem_map.mp hmem
            simpa [TraceEv.stateExit] using ha2 x hx
        next s2 tr2 hA =>
          obtain ⟨ha2, _⟩ := runHookList_completed_inv hs1 hA
          rcases List.mem_append.mp hmem with hmem | hmem
          · rcases List.mem_append.mp hmem with hmem | hmem
            · obtain ⟨x, hx, rfl⟩ := List.mem_map.mp hmem
              simpa [TraceEv.stateExit] using ha x hx
            · rw [List.mem_singleton.mp hmem]
              rfl
          · obtain ⟨x, hx, rfl⟩ := List.mem_map.mp hmem
            simpa [TraceEv.stateExit] using ha2 x hx
        next s2 e2 tr2 hA =>
          obtain ⟨ha2, hs2⟩ := runHookList_threw_inv hs1 hA
          rcases List.mem_append.mp hmem with hmem | hmem
          · rcases List.mem_append.mp hmem with hmem | hmem
            · rcases List.mem_append.mp hmem with hmem | hmem
              · obtain ⟨x, hx, rfl⟩ := List.mem_map.mp hmem
                simpa [TraceEv.stateExit] using ha x hx
              · rw [List.mem_singleton.mp hmem]
                rfl
            · obtain ⟨x, hx, rfl⟩ := List.mem_map.mp hmem
              simpa [TraceEv.stateExit] using ha2 x hx
          · exact errorPhase_state_exit hs2 tv hmem

theorem withHooksRun_before_exits {hooks : HooksObject E C R Err}
    (lambda : E → C → Except Err R) (event : E) (context : C)
    {B1 B2 : List (HookHandler E C R Err)} {hk : HookHandler E C R Err}
    {s s' : UseHooksState E C R Err} {trB : List (UseHooksState E C R Err)}
    (hsplit : hooks.before = B1 ++ hk :: B2)
    (hB1 : runHookList (fun st => st.exit) B1 (initState event context) = .completed s trB)
    (hhk : hk s = .ok s')
    (hexit : s'.exit = true) :
    withHooksRun hooks lambda event context
      = (.ok s'.response, (trB ++ [s]).map TraceEv.beforeHook) := by
  have hfull : runHookList (fun st => st.exit) hooks.before (initState event context)
      = .exited s' (trB ++ [s]) := by
    rw [hsplit, runHookList_append_completed (hk :: B2) hB1]
    simp [runHookList, hhk, hexit, HookLoopResult.addTrace]
  simp only [withHooksRun, hfull]

theorem combineHooks_foldl (ps : List (PartialHooksObject E C R Err))
    (acc : HooksObject E C R Err) :
    List.foldl combineHooksStep acc ps
      = ⟨acc.before ++ fieldConcat (fun p => p.before) ps,
         acc.after ++ fieldConcat (fun p => p.after) ps,
         acc.onError ++ fieldConcat (fun p => p.onError) ps⟩ := by
  induction ps generalizing acc with
  | nil => cases acc; simp [fieldConcat]
  | cons p t ih =>
    simp only [List.foldl_cons, ih, combineHooksStep, fieldConcat, defaultHook]
    cases acc
    simp [List.append_assoc]

/-- C1 (code bug at src/src/index.ts line 52): the legacy `useHooks` catch
block iterates `hooks.after`, not `hooks.onError`.  At a hook set with one
after-hook (sets response 999) and one onError-hook (exits with response 500)
and a handler that rejects with 7, the legacy executor invokes the after-hook
with the error-carrying state and never invokes the onError hook, resolving
with 999; the current `withHooks` executor on the same input invokes the
onError hook with the error-carrying state (no after-hook sees it) and
resolves with 500, as the claim describes. -/
theorem legacy_catch_runs_after_hooks :
    useHooksRun legacyBugHooks rejectLambda7 0 0
      = (Except.ok (some 999),
          [TraceEv.handlerCall 0 0,
           TraceEv.afterHook ⟨0, 0, false, none, some 7⟩])
    ∧ withHooksRun legacyBugHooks rejectLambda7 0 0
      = (Except.ok (some 500),
          [TraceEv.handlerCall 0 0,
           TraceEv.errorHook ⟨0, 0, false, none, some 7⟩]) :=
  ⟨rfl, rfl⟩

/-- C2: if the before list splits as `B1 ++ hk :: B2`, the hooks of `B1` all
complete without exiting, and `hk` returns a state with the exit flag set,
then the decorated handler resolves with exactly that state's response, and
the whole invocation trace consists of the `B1` invocations (`trB`, one
entry per hook of `B1`, by the length conjunct) followed by the invocation
of `hk` — so the handler, the hooks after `hk` in `before`, the after-hooks
and the onError-hooks are never invoked. -/
theorem before_exit_short_circuits (E C R Err : Type) (hooks : HooksObject E C R Err)
    (lambda : E → C → Except Err R) (event : E) (context : C)
    (B1 : List (HookHandler E C R Err)) (hk : HookHandler E C R Err)
    (B2 : List (HookHandler E C R Err)) (s : UseHooksState E C R Err)
    (trB : List (UseHooksState E C R Err)) (s' : UseHooksState E C R Err)
    (hsplit : hooks.before = B1 ++ hk :: B2)
    (hB1 : runHookList (fun st => st.exit) B1 (initState event context) = .completed s trB)
    (hhk : hk s = .ok s')
    (hexit : s'.exit = true) :
    withHooksRun hooks lambda event context
      = (.ok s'.response, (trB ++ [s]).map TraceEv.beforeHook)
    ∧ trB.length = B1.length :=
  ⟨withHooksRun_before_exits lambda event context hsplit hB1 hhk hexit,
   runHookList_completed_length hB1⟩

/-- C2 witness: hook set with before = [exit-with-7, rejecting], after and
onError rejecting; the first before-hook exits, so the run returns 7 with a
one-event trace. -/
theorem before_exit_short_circuits_wit :
    withHooksRun hooksBeforeExit rejectLambda7 1 2
      = (Except.ok (some 7), [TraceEv.beforeHook (initState 1 2)])
    ∧ ([] : List (UseHooksState ℕ ℕ ℕ ℕ)).length
        = ([] : List (HookHandler ℕ ℕ ℕ ℕ)).length := by
  exact before_exit_short_circuits ℕ ℕ ℕ ℕ hooksBeforeExit rejectLambda7 1 2 []
    exitHook7 [rejectHook99] (initState 1 2) [] ⟨1, 2, true, some 7, none⟩
    rfl rfl rfl rfl

/-- C3: `combineHooks` equals field-wise concatenation across the partials in
input order, a missing field contributing the empty sequence, and the merge
of the empty sequence of partials is the hook set with all three fields the
empty sequence.  (`defaultHook` is modelled from the spec, its defining file
not being under src/.) -/
theorem combineHooks_fieldwise_concat :
    ∀ (E C R Err : Type),
      (∀ ps : List (PartialHooksObject E C R Err),
        combineHooks ps
          = ⟨fieldConcat (fun p => p.before) ps, fieldConcat (fun p => p.after) ps,
             fieldConcat (fun p => p.onError) ps⟩)
      ∧ combineHooks ([] : List (PartialHooksObject E C R Err)) = ⟨[], [], []⟩ := by
  intro E C R Err
  constructor
  · intro ps
    unfold combineHooks
    rw [combineHooks_foldl]
    simp [defaultHook]
  · rfl

/-- C4 counterexample: with the empty hook set (so `onError` is empty) and a
handler that rejects with 7, the decorated handler resolves — with the
undefined response — instead of rejecting as the claim states: the catch
block swallows the error and falls through to `return state.response`
(src/src/index.ts lines 116-126). -/
theorem empty_onError_resolves_cex :
    withHooksRun emptyHooks rejectLambda7 0 0 = (Except.ok none, [TraceEv.handlerCall 0 0])
    ∧ isResolved (withHooksRun emptyHooks rejectLambda7 0 0).1 = true :=
  ⟨rfl, rfl⟩

/-- C4 (amended): when the hook set's `onError` list is empty, the decorated
handler always resolves, never rejects: a raise from a before-hook, the
handler or an after-hook is captured into `state.error`, the empty onError
loop does nothing, and the invocation resolves with `state.response` as it
stood at the raise (undefined when none was set). -/
theorem empty_onError_always_resolves (E C R Err : Type) (hooks : HooksObject E C R Err)
    (honE : hooks.onError = []) :
    (∀ (lambda : E → C → Except Err R) (event : E) (context : C),
       isResolved (withHooksRun hooks lambda event context).1 = true)
    ∧ (∀ (s : UseHooksState E C R Err) (e : Err),
       errorPhase hooks s e = (Except.ok s.response, [])) := by
  constructor
  · intro lambda event context
    simp only [withHooksRun]
    split
    · rfl
    next s e tr hB => simp [errorPhase_empty honE s e, isResolved]
    next s tr hB =>
      split
      next e hlam => simp [errorPhase_empty honE s e, isResolved]
      next resp hlam =>
        split
        · rfl
        · split
          next s2 tr2 hA => rfl
          next s2 tr2 hA => rfl
          next s2 e2 tr2 hA => simp [errorPhase_empty honE s2 e2, isResolved]
  · intro s e
    exact errorPhase_empty honE s e

/-- C4 witness: the empty hook set with a rejecting handler still resolves. -/
theorem empty_onError_always_resolves_wit :
    isResolved (withHooksRun emptyHooks rejectLambda7 3 4).1 = true := by
  exact (empty_onError_always_resolves ℕ ℕ ℕ ℕ emptyHooks rfl).1 rejectLambda7 3 4

/-- C5: once the error phase is entered (here: the before phase completes and
the handler rejects with `e`), if the onError list splits as `O1 ++ hE :: O2`
where the hooks of `O1` complete without exiting and `hE` rejects with `e'`,
then the decorated handler's promise rejects with `e'` (the error phase
catches nothing), and exactly `O1.length + 1` onError hooks were invoked —
the hooks of `O2` never run. -/
theorem onError_throw_is_fatal (E C R Err : Type) (hooks : HooksObject E C R Err)
    (lambda : E → C → Except Err R) (event : E) (context : C)
    (s : UseHooksState E C R Err) (trB : List (UseHooksState E C R Err)) (e : Err)
    (O1 : List (HookHandler E C R Err)) (hE : HookHandler E C R Err)
    (O2 : List (HookHandler E C R Err)) (s1 : UseHooksState E C R Err)
    (tr1 : List (UseHooksState E C R Err)) (e' : Err)
    (hB : runHookList (fun st => st.exit) hooks.before (initState event context)
            = .completed s trB)
    (hlam : lambda s.event s.context = .error e)
    (honE : hooks.onError = O1 ++ hE :: O2)
    (hO1 : runHookList (fun st => st.exit) O1 { s with error := some e }
             = .completed s1 tr1)
    (hthrow : hE s1 = .error e') :
    (withHooksRun hooks lambda event context).1 = .error e'
    ∧ ((withHooksRun hooks lambda event context).2.countP fun tv => tv.isErrHook)
        = O1.length + 1 := by
  have herr : runHookList (fun st => st.exit) hooks.onError { s with error := some e }
      = .threw s1 e' (tr1 ++ [s1]) := by
    rw [honE, runHookList_append_completed (hE :: O2) hO1]
    simp [runHookList, hthrow, HookLoopResult.addTrace]
  have hep : errorPhase hooks s e = (.error e', (tr1 ++ [s1]).map TraceEv.errorHook) := by
    simp only [errorPhase, herr]
  have hlen : tr1.length = O1.length := runHookList_completed_length hO1
  constructor
  · simp only [withHooksRun, hB, hlam, hep]
  · simp only [withHooksRun, hB, hlam, hep]
    simp [List.countP_append, List.countP_map, Function.comp_def, TraceEv.isErrHook,
      List.countP_cons, hlen]

/-- C5 witness: a single onError hook that rejects with 55 after the handler
rejects with 7; the whole run rejects with 55 after exactly one onError
invocation. -/
theorem onError_throw_is_fatal_wit :
    (withHooksRun hooksRejectingOnError rejectLambda7 0 0).1 = .error 55
    ∧ ((withHooksRun hooksRejectingOnError rejectLambda7 0 0).2.countP
        fun tv => tv.isErrHook) = 0 + 1 := by
  exact onError_throw_is_fatal ℕ ℕ ℕ ℕ hooksRejectingOnError rejectLambda7 0 0
    (initState 0 0) [] 7 [] rejectHook55 [] ⟨0, 0, false, none, some 7⟩ [] 55
    rfl rfl rfl rfl rfl

/-- C6: when the after list is empty, the before phase completes without an
exit and the handler resolves with `r`, the decorated handler resolves with
exactly `r` and the trace holds no after-hook and no onError-hook event —
only the before invocations and the handler call.  With the fully empty hook
set this specializes to: the decorated handler's response is the wrapped
handler's own response, unchanged (see the witness). -/
theorem empty_after_returns_handler_response (E C R Err : Type)
    (hooks : HooksObject E C R Err) (lambda : E → C → Except Err R)
    (event : E) (context : C) (s : UseHooksState E C R Err)
    (trB : List (UseHooksState E C R Err)) (r : R)
    (hafter : hooks.after = [])
    (hB : runHookList (fun st => st.exit) hooks.before (initState event context)
            = .completed s trB)
    (hlam : lambda s.event s.context = .ok r) :
    withHooksRun hooks lambda event context
      = (Except.ok (some r),
         trB.map TraceEv.beforeHook ++ [TraceEv.handlerCall s.event s.context]) := by
  simp only [withHooksRun, hB, hlam, hafter]
  rfl

/-- C6 witness: the fully empty hook set with the handler resolving with
`event + context`; the decorated handler resolves with exactly that value. -/
theorem empty_after_returns_handler_response_wit :
    withHooksRun emptyHooks addLambda 1 2
      = (Except.ok (some 3), [TraceEv.handlerCall 1 2]) := by
  exact empty_after_returns_handler_response ℕ ℕ ℕ ℕ emptyHooks addLambda 1 2
    (initState 1 2) [] 3 rfl rfl rfl

/-- C7 counterexample: the decorator factory does mutate its input — the
legacy `useHooks` (src/src/index.ts lines 27-29) assigns `[]` to each missing
field of the caller's `hooks` object through the shared reference, so after
decorating with the all-missing partial the caller's object is no longer
all-missing. -/
theorem legacy_useHooks_mutates_input_cex :
    useHooksAssignDefaults noneHooks ≠ noneHooks := by
  simp [useHooksAssignDefaults, noneHooks]

/-- C7 (amended): `combineHooks` itself is pure — the caller's view of its
argument list after a call is the argument list unchanged (its body builds
only fresh objects) — and the hook lists used by the pipeline are fixed
values closed over at decoration time; the legacy `useHooks` factory,
however, mutates its input object at decoration time, exactly by writing
`some []` over each missing field while keeping every present field. -/
theorem merge_pure_legacy_fills_missing :
    ∀ (E C R Err : Type),
      (∀ ps : List (PartialHooksObject E C R Err), (combineHooksCall ps).2 = ps)
      ∧ (∀ p : PartialHooksObject E C R Err,
          useHooksAssignDefaults p
            = ⟨some (p.before.getD []), some (p.after.getD []),
               some (p.onError.getD [])⟩) := by
  intro E C R Err
  exact ⟨fun ps => rfl, fun p => rfl⟩

/-- C9: no hook of any phase is ever invoked with a state whose exit flag is
set: every state recorded in the trace of any invocation of the `withHooks`
executor has `exit = false` (the handler call carries no state and is mapped
to `false`). -/
theorem hooks_never_observe_exit :
    ∀ (E C R Err : Type) (hooks : HooksObject E C R Err)
      (lambda : E → C → Except Err R) (event : E) (context : C),
      ((withHooksRun hooks lambda event context).2.all fun tv => !tv.stateExit) = true := by
  intro E C R Err hooks lambda event context
  rw [List.all_eq_true]
  intro tv hmem
  simp [withHooksRun_trace_exit hooks lambda event context tv hmem]

/-- C10: a hook that sets the exit flag while leaving the response unset
still terminates the run with a resolution: the executor honors `exit`
without checking that a response was supplied and resolves with the absent
(`none` = undefined) response — both for a before-hook (first conjunct) and
for an onError hook inside the error phase (second conjunct). -/
theorem exit_without_response_resolves_none :
    ∀ (E C R Err : Type),
      (∀ (hooks : HooksObject E C R Err) (lambda : E → C → Except Err R)
         (event : E) (context : C) (B1 : List (HookHandler E C R Err))
         (hk : HookHandler E C R Err) (B2 : List (HookHandler E C R Err))
         (s s' : UseHooksState E C R Err) (trB : List (UseHooksState E C R Err)),
         hooks.before = B1 ++ hk :: B2 →
         runHookList (fun st => st.exit) B1 (initState event context) = .completed s trB →
         hk s = .ok s' → s'.exit = true → s'.response = none →
         (withHooksRun hooks lambda event context).1 = .ok none)
    ∧ (∀ (hooks : HooksObject E C R Err) (s : UseHooksState E C R Err) (e : Err)
         (O1 : List (HookHandler E C R Err)) (hE : HookHandler E C R Err)
         (O2 : List (HookHandler E C R Err)) (s1 s2 : UseHooksState E C R Err)
         (tr1 : List (UseHooksState E C R Err)),
         hooks.onError = O1 ++ hE :: O2 →
         runHookList (fun st => st.exit) O1 { s with error := some e } = .completed s1 tr1 →
         hE s1 = .ok s2 → s2.exit = true → s2.response = none →
         (errorPhase hooks s e).1 = .ok none) := by
  intro E C R Err
  constructor
  · intro hooks lambda event context B1 hk B2 s s' trB hsplit hB1 hhk hexit hresp
    rw [withHooksRun_before_exits lambda event context hsplit hB1 hhk hexit]
    simp [hresp]
  · intro hooks s e O1 hE O2 s1 s2 tr1 honE hO1 hhk hexit hresp
    have herr : runHookList (fun st => st.exit) hooks.onError { s with error := some e }
        = .exited s2 (tr1 ++ [s1]) := by
      rw [honE, runHookList_append_completed (hE :: O2) hO1]
      simp [runHookList, hhk, hexit, HookLoopResult.addTrace]
    simp only [errorPhase, herr]
    simp [hresp]

/-- C10 witness: a single before-hook that sets exit without a response; the
decorated handler resolves with the absent response. -/
theorem exit_without_response_resolves_none_wit :
    (withHooksRun hooksExitNoResp addLambda 0 0).1 = .ok none := by
  exact (exit_without_response_resolves_none ℕ ℕ ℕ ℕ).1 hooksExitNoResp addLambda 0 0
    [] exitNoRespHook [] (initState 0 0) ⟨0, 0, true, none, none⟩ [] rfl rfl rfl rfl rfl

theorem errorPhaseWithConfig_trace_config {hooks : ConfigHooksObject E C R Err Cfg}
    {s : ConfigState E C R Err Cfg} {e : Err} {cfg : Cfg}
    (hpres : ∀ h ∈ hooks.onError, ∀ t t', h t = Except.ok t' → t'.config = t.config)
    (h0 : s.config = cfg) :
    ∀ tv ∈ (errorPhaseWithConfig hooks s e).2, tv.configIs cfg := by
  intro tv hmem
  have h0' : ({ s with error := some e } : ConfigState E C R Err Cfg).config = cfg := h0
  simp only [errorPhaseWithConfig] at hmem
  split at hmem
  next s2 tr hr =>
    obtain ⟨x, hx, rfl⟩ := List.mem_map.mp hmem
    exact (runHookList_config_exited hpres h0' hr).1 x hx
  next s2 tr hr =>
    obtain ⟨x, hx, rfl⟩ := List.mem_map.mp hmem
    exact (runHookList_config_completed hpres h0' hr).1 x hx
  next s2 e2 tr hr =>
    obtain ⟨x, hx, rfl⟩ := List.mem_map.mp hmem
    exact (runHookList_config_threw hpres h0' hr).1 x hx

/-- C8: in the config-carrying decorator variant (modelled from the spec,
the attaching code not being under src/), the `config` value supplied at
decoration time is placed on the initial state of every invocation, and —
provided the hooks treat the field as read-only, i.e. return states with the
same `config` — every state observed by every hook of every phase, in every
invocation of the decorated handler, carries exactly that `config`. -/
theorem config_constant_on_trace (E C R Err Cfg : Type)
    (hooks : ConfigHooksObject E C R Err Cfg) (config : Cfg)
    (lambda : E → C → Except Err R) (event : E) (context : C)
    (hpres : ∀ h ∈ hooks.before ++ hooks.after ++ hooks.onError,
       ∀ t t', h t = Except.ok t' → t'.config = t.config) :
    ∀ tv ∈ (withHooksConfigRun hooks config lambda event context).2,
      tv.configIs config := by
  have hpb : ∀ h ∈ hooks.before, ∀ t t', h t = Except.ok t' → t'.config = t.config :=
    fun h hh => hpres h (by simp [hh])
  have hpa : ∀ h ∈ hooks.after, ∀ t t', h t = Except.ok t' → t'.config = t.config :=
    fun h hh => hpres h (by simp [hh])
  have hpe : ∀ h ∈ hooks.onError, ∀ t t', h t = Except.ok t' → t'.config = t.config :=
    fun h hh => hpres h (by simp [hh])
  have h0 : (initConfigState config event context : ConfigState E C R Err Cfg).config
      = config := rfl
  intro tv hmem
  simp only [withHooksConfigRun] at hmem
  split at hmem
  next s tr hB =>
    obtain ⟨x, hx, rfl⟩ := List.mem_map.mp hmem
    exact (runHookList_config_exited hpb h0 hB).1 x hx
  next s e tr hB =>
    obtain ⟨ha, hsx⟩ := runHookList_config_threw hpb h0 hB
    rcases List.mem_append.mp hmem with hmem | hmem
    · obtain ⟨x, hx, rfl⟩ := List.mem_map.mp hmem
      exact ha x hx
    · exact errorPhaseWithConfig_trace_config hpe hsx tv hmem
  next s tr hB =>
    obtain ⟨ha, hsx⟩ := runHookList_config_completed hpb h0 hB
    split at hmem
    next e hlam =>
      rcases List.mem_append.mp hmem with hmem | hmem
      · rcases List.mem_append.mp hmem with hmem | hmem
        · obtain ⟨x, hx, rfl⟩ := List.mem_map.mp hmem
          exact ha x hx
        · rw [List.mem_singleton.mp hmem]
          trivial
      · exact errorPhaseWithConfig_trace_config hpe hsx tv hmem
    next resp hlam =>
      have hs1 : ({ s with response := some resp } : ConfigState E C R Err Cfg).config
          = config := hsx
      split at hmem
      · rcases List.mem_append.mp hmem with hmem | hmem
        · obtain ⟨x, hx, rfl⟩ := List.mem_map.mp hmem
          exact ha x hx
        · rw [List.mem_singleton.mp hmem]
          trivial
      · split at hmem
        next s2 tr2 hA =>
          obtain ⟨ha2, _⟩ := runHookList_config_exited hpa hs1 hA
          rcases List.mem_append.mp hmem with hmem | hmem
          · rcases List.mem_append.mp hmem with hmem | hmem
            · obtain ⟨x, hx, rfl⟩ := List.mem_map.mp hmem
              exact ha x hx
            · rw [List.mem_singleton.mp hmem]
              trivial
          · obtain ⟨x, hx, rfl⟩ := List.mem_map.mp hmem
            exact ha2 x hx
        next s2 tr2 hA =>
          obtain ⟨ha2, _⟩ := runHookList_config_completed hpa hs1 hA
          rcases List.mem_append.mp hmem with hmem | hmem
          · rcases List.mem_append.mp hmem with hmem | hmem
            · obtain ⟨x, hx, rfl⟩ := List.mem_map.mp hmem
              exact ha x hx
            · rw [List.mem_singleton.mp hmem]
              trivial
          · obtain ⟨x, hx, rfl⟩ := List.mem_map.mp hmem
            exact ha2 x hx
        next s2 e2 tr2 hA =>
          obtain ⟨ha2, hs2⟩ := runHookList_config_threw hpa hs1 hA
          rcases List.mem_append.mp hmem with hmem | hmem
          · rcases List.mem_append.mp hmem with hmem | hmem
            · rcases List.mem_append.mp hmem with hmem | hmem
              · obtain ⟨x, hx, rfl⟩ := List.mem_map.mp hmem
                exact ha x hx
              · rw [List.mem_singleton.mp hmem]
                trivial
            · obtain ⟨x, hx, rfl⟩ := List.mem_map.mp hmem
              exact ha2 x hx
          · exact errorPhaseWithConfig_trace_config hpe hs2 tv hmem

/-- C8 witness: config 5, one config-preserving before-hook, a resolving
handler; the before-hook's recorded state carries config 5. -/
theorem config_constant_on_trace_wit :
    (TraceEv.beforeHook
      (⟨0, 0, false, none, none, 5⟩ : ConfigState ℕ ℕ ℕ ℕ ℕ)).configIs 5 := by
  have hpres : ∀ h ∈ cfgHooks.before ++ cfgHooks.after ++ cfgHooks.onError,
      ∀ t t', h t = Except.ok t' → (t' : ConfigState ℕ ℕ ℕ ℕ ℕ).config = t.config := by
    intro h hh t t' he
    have hh' : h = bumpEventHookC := by
      simpa [cfgHooks] using hh
    rw [hh'] at he
    simp only [bumpEventHookC, Except.ok.injEq] at he
    rw [← he]
  exact config_constant_on_trace ℕ ℕ ℕ ℕ ℕ cfgHooks 5 eventLambda 0 0 hpres
    (TraceEv.beforeHook ⟨0, 0, false, none, none, 5⟩)
    (by
      have ht : (withHooksConfigRun cfgHooks 5 eventLambda 0 0).2
          = [TraceEv.beforeHook ⟨0, 0, false, none, none, 5⟩,
             TraceEv.handlerCall 1 0] := rfl
      rw [ht]
      simp)

end LambdaHooks
